import Mathlib

/-!
# Verification of the stock-trading profit optimizer (`src/c2.py`)

The source is a single Python class `MaxProfit` holding a price list and a
resolved initial budget.  It offers two strategies to compute the maximal
trading profit under a single-position constraint with an optional
no-borrowing budget:

* `_bottom_up`: a single forward pass maintaining `cash_with_stock` and
  `cash_without_stock`, clamping `cash_with_stock` to `-inf` when negative;
* `_top_down`: a memoized recursion over `(day, has_stock)` with base case
  `day < 0`, returning `-inf` for an impossible/disqualified holding state.

Python floats are modelled by exact rationals; the `-float("inf")` sentinel
is modelled by an explicit bottom element of the `Cash` type.  All arithmetic
the program performs on the sentinel (`-inf + p`, `-inf - p`, `max`, `< 0`)
is mirrored exactly.  Day index `day : ℤ ≥ -1` of the Python recursion is
encoded as `d : ℕ` with `d = day + 1`, so `d = 0` is the virtual day before
the series starts.
-/

/-- Net-worth values: either the `-float("inf")` sentinel used by the code for
impossible / disqualified states, or a finite amount (Python float, modelled
as an exact rational). -/
inductive Cash where
  | neginf : Cash
  | val : ℚ → Cash
deriving DecidableEq, Repr

/-- `c - p` for a finite price `p`, as IEEE arithmetic does it on the code's
values: `-inf - p = -inf`. -/
def Cash.sub : Cash → ℚ → Cash
  | neginf, _ => neginf
  | val a, p => val (a - p)

/-- `c + p` for a finite price `p`: `-inf + p = -inf`. -/
def Cash.add : Cash → ℚ → Cash
  | neginf, _ => neginf
  | val a, p => val (a + p)

/-- Python's `max` on the values the code compares (`-inf` loses to
everything). -/
def Cash.max : Cash → Cash → Cash
  | neginf, c => c
  | val a, neginf => val a
  | val a, val b => val (Max.max a b)

/-- The test `c < 0` as the code performs it (`-inf < 0` is true). -/
def Cash.isNeg : Cash → Bool
  | neginf => true
  | val a => decide (a < 0)

/-- One iteration of the `for price in self._prices` loop of
`MaxProfit._bottom_up`: state is `(cash_with_stock, cash_without_stock)`. -/
def stepBU (s : Cash × Cash) (price : ℚ) : Cash × Cash :=
  let buy := s.2.sub price
  let hold := s.1
  let do_not_buy := s.2
  let sold := s.1.add price
  let cash_with_stock := Cash.max buy hold
  let cash_without_stock := Cash.max do_not_buy sold
  let clamped := if cash_with_stock.isNeg then Cash.neginf else cash_with_stock
  (clamped, cash_without_stock)

/-- `MaxProfit._top_down(day, has_stock)` with the day shifted by one:
argument `d` stands for Python's `day + 1`, so `d = 0` is the base case
`day < 0` and `d = k + 1` reads price `prices[k]`. -/
def top_down (prices : List ℚ) (budget : ℚ) : ℕ → Bool → Cash
  | 0, has_stock => if has_stock then Cash.neginf else Cash.val budget
  | d + 1, true =>
      let price := prices.getD d 0
      let buy := (top_down prices budget d false).sub price
      let hold := top_down prices budget d true
      let net_worth := Cash.max buy hold
      if net_worth.isNeg then Cash.neginf else net_worth
  | d + 1, false =>
      let price := prices.getD d 0
      let do_not_buy := top_down prices budget d false
      let sell := (top_down prices budget d true).add price
      Cash.max do_not_buy sell

/-- The data a constructed `MaxProfit` instance stores: the converted price
list and the resolved initial budget. -/
structure MaxProfit where
  _prices : List ℚ
  _initial_budget : ℚ
deriving DecidableEq, Repr

/-- `MaxProfit.__init__`: stores the prices; if `initial_budget` is `None` it
resolves to `math.ceil(sum(prices) + 1)`, otherwise the given value is stored
unchanged (the constructor performs no validation). -/
def MaxProfit.init (prices : List ℚ) (initial_budget : Option ℚ) : MaxProfit :=
  match initial_budget with
  | none => ⟨prices, ((⌈prices.sum + 1⌉ : ℤ) : ℚ)⟩
  | some b => ⟨prices, b⟩

/-- The loop state of `MaxProfit._bottom_up` after `k` iterations
(`cash_with_stock`, `cash_without_stock`). -/
def MaxProfit.bottom_up_state (m : MaxProfit) (k : ℕ) : Cash × Cash :=
  (m._prices.take k).foldl stepBU (Cash.neginf, Cash.val m._initial_budget)

/-- `MaxProfit._bottom_up`: run the loop over all prices and return
`cash_without_stock - self._initial_budget`. -/
def MaxProfit._bottom_up (m : MaxProfit) : Cash :=
  ((m._prices.foldl stepBU (Cash.neginf, Cash.val m._initial_budget)).2).sub
    m._initial_budget

/-- `self._top_down(day, has_stock)` on an instance (day shifted by one). -/
def MaxProfit._top_down (m : MaxProfit) (d : ℕ) (has_stock : Bool) : Cash :=
  top_down m._prices m._initial_budget d has_stock

/-- `MaxProfit.solve(bottom_up)`: the bottom-up pass, or
`self._top_down(last_day, has_stock=False) - self._initial_budget` where
`last_day = len(self._prices) - 1` (shifted: argument `len(self._prices)`). -/
def MaxProfit.solve (m : MaxProfit) (bottom_up : Bool) : Cash :=
  if bottom_up then m._bottom_up
  else (m._top_down m._prices.length false).sub m._initial_budget

/-- A budget argument is valid per the spec when it is omitted or
non-negative. -/
def validBudget : Option ℚ → Prop
  | none => True
  | some b => 0 ≤ b

/-! ## The lru_cache of `_top_down`, made explicit

`MaxProfit._top_down` is decorated with `functools.lru_cache`; restricted to
one instance the cache is an association list from (shifted) day and
`has_stock` to the computed value.  `memo_top_down` is `_top_down` with that
cache threaded explicitly, performing the same recursive calls in the same
order (`(day-1, False)` before `(day-1, True)` in both branches). -/

abbrev Memo := List ((ℕ × Bool) × Cash)

/-- Cache lookup (a Python dict hit on the memoized arguments). -/
def memoLookup (key : ℕ × Bool) : Memo → Option Cash
  | [] => none
  | (k, v) :: m => if k = key then some v else memoLookup key m

/-- `_top_down` with the memoization cache threaded explicitly. -/
def memo_top_down (prices : List ℚ) (budget : ℚ) : ℕ → Bool → Memo → Cash × Memo
  | 0, has_stock, m =>
    match memoLookup (0, has_stock) m with
    | some v => (v, m)
    | none =>
      let v := if has_stock then Cash.neginf else Cash.val budget
      (v, ((0, has_stock), v) :: m)
  | d + 1, has_stock, m =>
    match memoLookup (d + 1, has_stock) m with
    | some v => (v, m)
    | none =>
      let price := prices.getD d 0
      let r1 := memo_top_down prices budget d false m
      let r2 := memo_top_down prices budget d true r1.2
      let v :=
        if has_stock then
          let net_worth := Cash.max (r1.1.sub price) r2.1
          if net_worth.isNeg then Cash.neginf else net_worth
        else Cash.max r1.1 (r2.1.add price)
      (v, ((d + 1, has_stock), v) :: r2.2)

/-- A cache state is consistent when every stored entry is the value the pure
recursion computes for that state (the write-once property of the cache). -/
def Consistent (prices : List ℚ) (budget : ℚ) (m : Memo) : Prop :=
  ∀ d s v, memoLookup (d, s) m = some v → v = top_down prices budget d s

/-- `solve` with the instance's cache state made explicit: the bottom-up
strategy neither reads nor writes the cache, the top-down strategy queries
and extends it. -/
def MaxProfit.solveC (m : MaxProfit) (bottom_up : Bool) (cache : Memo) :
    Cash × Memo :=
  if bottom_up then (m._bottom_up, cache)
  else
    let r := memo_top_down m._prices m._initial_budget m._prices.length false cache
    (r.1.sub m._initial_budget, r.2)

/-! ## Helper lemmas -/

theorem consistent_nil (prices : List ℚ) (budget : ℚ) :
    Consistent prices budget [] := by
  intro d s v h
  simp [memoLookup] at h

theorem Consistent.cons {prices : List ℚ} {budget : ℚ} {m : Memo}
    (hm : Consistent prices budget m) (d : ℕ) (s : Bool) (v : Cash)
    (hv : v = top_down prices budget d s) :
    Consistent prices budget (((d, s), v) :: m) := by
  intro d' s' v' h
  unfold memoLookup at h
  by_cases hk : (d, s) = (d', s')
  · rw [if_pos hk] at h
    have hd : d = d' := congrArg Prod.fst hk
    have hs : s = s' := congrArg Prod.snd hk
    subst hd
    subst hs
    cases h
    exact hv
  · rw [if_neg hk] at h
    exact hm d' s' v' h

/-- The bottom-up loop state after `k` iterations is exactly the pair of
top-down values at (shifted) day `k`: the two strategies compute the same
per-day table. -/
theorem foldl_stepBU_eq_top_down (prices : List ℚ) (budget : ℚ) :
    ∀ k, k ≤ prices.length →
      (prices.take k).foldl stepBU (Cash.neginf, Cash.val budget) =
        (top_down prices budget k true, top_down prices budget k false) := by
  intro k
  induction k with
  | zero => intro _; rfl
  | succ n ih =>
    intro hk
    have hn : n < prices.length := hk
    have htake : prices.take (n + 1) = prices.take n ++ [prices[n]] :=
      (List.take_concat_get' prices n hn).symm
    have hg : prices.getD n 0 = prices[n] := List.getD_eq_getElem _ _ hn
    rw [htake, List.foldl_append, ih (Nat.le_of_lt hn)]
    simp only [List.foldl_cons, List.foldl_nil]
    simp only [stepBU, top_down, hg]

/-- Joint bounds on the recursion: the not-holding value is always finite and
at least the budget (the `do_not_buy` branch carries it forward), and the
holding value is either the sentinel or finite non-negative (the clamp in the
`has_stock` branch guarantees this). -/
theorem top_down_bounds (prices : List ℚ) (budget : ℚ) (d : ℕ) :
    (∃ q, top_down prices budget d false = Cash.val q ∧ budget ≤ q) ∧
    (top_down prices budget d true = Cash.neginf ∨
      ∃ w, top_down prices budget d true = Cash.val w ∧ 0 ≤ w) := by
  induction d with
  | zero => exact ⟨⟨budget, rfl, le_refl budget⟩, Or.inl rfl⟩
  | succ n ih =>
    obtain ⟨⟨q, hq, hbq⟩, hT⟩ := ih
    constructor
    · rcases hT with h | ⟨w, hw, hw0⟩
      · refine ⟨q, ?_, hbq⟩
        simp only [top_down, hq, h, Cash.add, Cash.max]
      · refine ⟨Max.max q (w + prices.getD n 0), ?_,
          le_trans hbq (le_max_left _ _)⟩
        simp only [top_down, hq, hw, Cash.add, Cash.max]
    · rcases hT with h | ⟨w, hw, hw0⟩
      · by_cases hneg : q - prices.getD n 0 < 0
        · left
          simp only [top_down, hq, h, Cash.sub, Cash.max, Cash.isNeg,
            decide_eq_true_eq, hneg, if_true]
        · right
          refine ⟨q - prices.getD n 0, ?_, not_lt.1 hneg⟩
          simp only [top_down, hq, h, Cash.sub, Cash.max, Cash.isNeg,
            decide_eq_true_eq, hneg, if_false]
      · by_cases hneg : Max.max (q - prices.getD n 0) w < 0
        · left
          simp only [top_down, hq, hw, Cash.sub, Cash.max, Cash.isNeg,
            decide_eq_true_eq, hneg, if_true]
        · right
          refine ⟨Max.max (q - prices.getD n 0) w, ?_, not_lt.1 hneg⟩
          simp only [top_down, hq, hw, Cash.sub, Cash.max, Cash.isNeg,
            decide_eq_true_eq, hneg, if_false]

/-- Running the memoized recursion from any consistent cache returns exactly
the value of the pure recursion and leaves the cache consistent: memoization
is invisible in the answer. -/
theorem memo_top_down_correct (prices : List ℚ) (budget : ℚ) :
    ∀ d s m, Consistent prices budget m →
      (memo_top_down prices budget d s m).1 = top_down prices budget d s ∧
      Consistent prices budget (memo_top_down prices budget d s m).2 := by
  intro d
  induction d with
  | zero =>
    intro s m hm
    cases hl : memoLookup (0, s) m with
    | some v =>
      have h1 : memo_top_down prices budget 0 s m = (v, m) := by
        simp only [memo_top_down, hl]
      rw [h1]
      exact ⟨hm 0 s v hl, hm⟩
    | none =>
      have hv : (if s then Cash.neginf else Cash.val budget) =
          top_down prices budget 0 s := by
        cases s <;> rfl
      have h1 : memo_top_down prices budget 0 s m =
          (if s then Cash.neginf else Cash.val budget,
            ((0, s), if s then Cash.neginf else Cash.val budget) :: m) := by
        simp only [memo_top_down, hl]
      rw [h1]
      exact ⟨hv, hm.cons 0 s _ hv⟩
  | succ n ih =>
    intro s m hm
    cases hl : memoLookup (n + 1, s) m with
    | some v =>
      have h1 : memo_top_down prices budget (n + 1) s m = (v, m) := by
        simp only [memo_top_down, hl]
      rw [h1]
      exact ⟨hm (n + 1) s v hl, hm⟩
    | none =>
      obtain ⟨e1, c1⟩ := ih false m hm
      obtain ⟨e2, c2⟩ := ih true _ c1
      have hpair : memo_top_down prices budget (n + 1) s m =
          (top_down prices budget (n + 1) s,
            ((n + 1, s), top_down prices budget (n + 1) s) ::
              (memo_top_down prices budget n true
                (memo_top_down prices budget n false m).2).2) := by
        cases s <;>
          simp only [memo_top_down, hl, e1, e2] <;>
          simp only [top_down] <;>
          simp
      rw [hpair]
      exact ⟨rfl, c2.cons (n + 1) s _ rfl⟩

/-- The two strategies agree on every instance, with no hypotheses at all. -/
theorem solve_agrees (m : MaxProfit) : m.solve true = m.solve false := by
  have h := foldl_stepBU_eq_top_down m._prices m._initial_budget
    m._prices.length le_rfl
  rw [List.take_length] at h
  simp [MaxProfit.solve, MaxProfit._bottom_up, MaxProfit._top_down, h]

/-- The profit reported by the top-down strategy is always non-negative. -/
theorem solve_false_nonneg (m : MaxProfit) :
    ∃ q, m.solve false = Cash.val q ∧ 0 ≤ q := by
  obtain ⟨⟨qf, hf, hbf⟩, -⟩ :=
    top_down_bounds m._prices m._initial_budget m._prices.length
  refine ⟨qf - m._initial_budget, ?_, by linarith⟩
  simp [MaxProfit.solve, MaxProfit._top_down, hf, Cash.sub]

/-- With the resolved "unlimited" budget `⌈sum + 1⌉` and non-negative prices,
every holding state on a real day has value at least `1`: buying any price of
the series leaves at least one unit of cash, so the clamp never fires. -/
theorem top_down_no_clamp (prices : List ℚ) (hp : ∀ p ∈ prices, 0 ≤ p)
    (d : ℕ) (hd : d < prices.length) :
    ∃ w, top_down prices ((⌈prices.sum + 1⌉ : ℤ) : ℚ) (d + 1) true =
      Cash.val w ∧ 1 ≤ w := by
  obtain ⟨⟨q, hq, hbq⟩, hT⟩ :=
    top_down_bounds prices ((⌈prices.sum + 1⌉ : ℤ) : ℚ) d
  have hgd : prices.getD d 0 = prices[d] := List.getD_eq_getElem _ _ hd
  have hple : prices[d] ≤ prices.sum :=
    List.single_le_sum hp _ (List.getElem_mem hd)
  have hBs : prices.sum + 1 ≤ ((⌈prices.sum + 1⌉ : ℤ) : ℚ) :=
    Int.le_ceil _
  have h1 : 1 ≤ q - prices.getD d 0 := by
    rw [hgd]
    linarith
  rcases hT with h | ⟨w, hw, hw0⟩
  · refine ⟨q - prices.getD d 0, ?_, h1⟩
    have hneg : ¬ q - prices.getD d 0 < 0 := by linarith
    simp only [top_down, hq, h, Cash.sub, Cash.max, Cash.isNeg,
      decide_eq_true_eq, hneg, if_false]
  · refine ⟨Max.max (q - prices.getD d 0) w, ?_,
      le_trans h1 (le_max_left _ _)⟩
    have hneg : ¬ Max.max (q - prices.getD d 0) w < 0 :=
      not_lt.2 (le_trans (by linarith) (le_max_left (q - prices.getD d 0) w))
    simp only [top_down, hq, hw, Cash.sub, Cash.max, Cash.isNeg,
      decide_eq_true_eq, hneg, if_false]

/-! ## The claims -/

/-- Claim C1: for every price sequence of non-negative rationals and every
valid budget (non-negative, or omitted), the iterative strategy and the
memoized recursive strategy return the same number:
`solve(bottom_up=True) = solve(bottom_up=False)` on the same instance. -/
theorem strategy_equivalence (prices : List ℚ) (budget : Option ℚ)
    (hp : ∀ p ∈ prices, 0 ≤ p) (hb : validBudget budget) :
    (MaxProfit.init prices budget).solve true =
      (MaxProfit.init prices budget).solve false :=
  solve_agrees _

/-- Witness for C1 at prices `[2, 5, 1]` and budget `1`. -/
theorem strategy_equivalence_witness :
    (∀ p ∈ [(2 : ℚ), 5, 1], 0 ≤ p) ∧ validBudget (some (1 : ℚ)) ∧
    (MaxProfit.init [2, 5, 1] (some 1)).solve true =
      (MaxProfit.init [2, 5, 1] (some 1)).solve false :=
  ⟨by norm_num, by norm_num [validBudget],
    strategy_equivalence [2, 5, 1] (some 1) (by norm_num)
      (by norm_num [validBudget])⟩

/-- Claim C2, counterexample: constructing with budget `-1` does not fail.
`MaxProfit.__init__` performs no validation whatsoever: the instance is fully
constructed and stores `-1` as its initial budget.  There is no `InvalidBudget`
error anywhere in the code. -/
theorem constructor_accepts_negative_budget :
    MaxProfit.init [2, 5, 1] (some (-1)) =
      { _prices := [2, 5, 1], _initial_budget := -1 } :=
  rfl

/-- Claim C2 as amended: for every price sequence, constructing with an
explicitly supplied negative budget succeeds completely; the prices and the
negative budget are stored unchanged.  The non-negativity requirement is only
a documented precondition in the constructor docstring, not enforced. -/
theorem negative_budget_stored (prices : List ℚ) (b : ℚ) (hb : b < 0) :
    (MaxProfit.init prices (some b))._prices = prices ∧
      (MaxProfit.init prices (some b))._initial_budget = b :=
  ⟨rfl, rfl⟩

/-- Witness for the amended C2 at prices `[]` and budget `-1`. -/
theorem negative_budget_stored_witness :
    (-1 : ℚ) < 0 ∧
    (MaxProfit.init [] (some (-1)))._prices = [] ∧
      (MaxProfit.init [] (some (-1)))._initial_budget = -1 :=
  ⟨by norm_num,
    (negative_budget_stored [] (-1) (by norm_num)).1,
    (negative_budget_stored [] (-1) (by norm_num)).2⟩

/-- Claim C3: with an explicitly supplied non-negative budget, the net worth
of the not-holding state is `≥ 0` at the end of every day: after each loop
iteration of the forward sweep `cash_without_stock` is finite and `≥ 0`, and
every top-down state `(day, has_stock=False)` with `day ≥ -1` (shifted:
every `d : ℕ`) has a finite value `≥ 0`. -/
theorem no_borrowing_invariant (prices : List ℚ) (b : ℚ) (hb : 0 ≤ b) :
    (∀ k, k ≤ prices.length → ∃ q,
      ((MaxProfit.init prices (some b)).bottom_up_state k).2 = Cash.val q ∧
        0 ≤ q) ∧
    (∀ d, ∃ q,
      (MaxProfit.init prices (some b))._top_down d false = Cash.val q ∧
        0 ≤ q) := by
  have hTD : ∀ d, ∃ q, top_down prices b d false = Cash.val q ∧ 0 ≤ q := by
    intro d
    obtain ⟨⟨q, hq, hbq⟩, -⟩ := top_down_bounds prices b d
    exact ⟨q, hq, le_trans hb hbq⟩
  constructor
  · intro k hk
    obtain ⟨q, hq, h0⟩ := hTD k
    refine ⟨q, ?_, h0⟩
    show ((prices.take k).foldl stepBU (Cash.neginf, Cash.val b)).2 = Cash.val q
    rw [foldl_stepBU_eq_top_down prices b k hk]
    exact hq
  · exact fun d => hTD d

/-- Witness for C3 at prices `[3, 1]` and budget `2`. -/
theorem no_borrowing_invariant_witness :
    (0 : ℚ) ≤ 2 ∧
    ((∀ k, k ≤ [(3 : ℚ), 1].length → ∃ q,
      ((MaxProfit.init [3, 1] (some 2)).bottom_up_state k).2 = Cash.val q ∧
        0 ≤ q) ∧
    (∀ d, ∃ q,
      (MaxProfit.init [3, 1] (some 2))._top_down d false = Cash.val q ∧
        0 ≤ q)) :=
  ⟨by norm_num, no_borrowing_invariant [3, 1] 2 (by norm_num)⟩

/-- Claim C4: when the budget argument is omitted, the resolved initial
budget stored in the instance equals `ceil(sum(prices) + 1)`. -/
theorem omitted_budget_resolution (prices : List ℚ) :
    (MaxProfit.init prices none)._initial_budget =
      ((⌈prices.sum + 1⌉ : ℤ) : ℚ) :=
  rfl

/-- Claim C5: on the empty price sequence, `solve` returns exactly `0` under
both strategies, for every valid budget (explicit non-negative or omitted). -/
theorem empty_series_zero (budget : Option ℚ) (hb : validBudget budget)
    (bottom_up : Bool) :
    (MaxProfit.init [] budget).solve bottom_up = Cash.val 0 := by
  cases budget <;> cases bottom_up <;>
    simp [MaxProfit.init, MaxProfit.solve, MaxProfit._bottom_up,
      MaxProfit._top_down, top_down, Cash.sub]

/-- Witness for C5 with the budget omitted and the bottom-up strategy. -/
theorem empty_series_zero_witness :
    validBudget none ∧
    (MaxProfit.init [] none).solve true = Cash.val 0 :=
  ⟨trivial, empty_series_zero none trivial true⟩

/-- Claim C6: with an explicitly supplied non-negative budget `b` and
non-negative prices, the profit returned by `solve` under either strategy is
finite and at least `-b`. -/
theorem profit_bounded_below (prices : List ℚ) (b : ℚ) (bottom_up : Bool)
    (hp : ∀ p ∈ prices, 0 ≤ p) (hb : 0 ≤ b) :
    ∃ q, (MaxProfit.init prices (some b)).solve bottom_up = Cash.val q ∧
      -b ≤ q := by
  obtain ⟨q, hq, hq0⟩ := solve_false_nonneg (MaxProfit.init prices (some b))
  have hsel : (MaxProfit.init prices (some b)).solve bottom_up =
      (MaxProfit.init prices (some b)).solve false := by
    cases bottom_up
    · rfl
    · exact solve_agrees _
  exact ⟨q, hsel.trans hq, by linarith⟩

/-- Witness for C6 at prices `[4, 2]`, budget `3`, bottom-up strategy. -/
theorem profit_bounded_below_witness :
    (∀ p ∈ [(4 : ℚ), 2], 0 ≤ p) ∧ (0 : ℚ) ≤ 3 ∧
    ∃ q, (MaxProfit.init [4, 2] (some 3)).solve true = Cash.val q ∧
      -(3 : ℚ) ≤ q :=
  ⟨by norm_num, by norm_num,
    profit_bounded_below [4, 2] 3 true (by norm_num) (by norm_num)⟩

/-- Claim C7: the spec's worked examples hold under both strategies with the
budget omitted: prices `[2, 5, 1]` give profit `3` and prices `[2, 5, 1, 3]`
give profit `5`. -/
theorem worked_examples :
    (MaxProfit.init [2, 5, 1] none).solve true = Cash.val 3 ∧
    (MaxProfit.init [2, 5, 1] none).solve false = Cash.val 3 ∧
    (MaxProfit.init [2, 5, 1, 3] none).solve true = Cash.val 5 ∧
    (MaxProfit.init [2, 5, 1, 3] none).solve false = Cash.val 5 := by
  refine ⟨?_, ?_, ?_, ?_⟩ <;>
    norm_num [MaxProfit.solve, MaxProfit.init, MaxProfit._bottom_up,
      MaxProfit._top_down, top_down, stepBU,
      Cash.sub, Cash.add, Cash.max, Cash.isNeg, max_def]

/-- Claim C8: calling `solve` twice on the same instance with the same
strategy selector yields the same result both times.  The cache is modelled
explicitly: starting from any consistent cache state (in particular the empty
cache of a fresh instance), the first call returns the pure value and the
second call, run on the cache the first call left behind, returns the same
number. -/
theorem solve_idempotent (m : MaxProfit) (bottom_up : Bool) (cache : Memo)
    (hc : Consistent m._prices m._initial_budget cache) :
    (m.solveC bottom_up cache).1 = m.solve bottom_up ∧
    (m.solveC bottom_up ((m.solveC bottom_up cache).2)).1 =
      (m.solveC bottom_up cache).1 := by
  cases bottom_up
  · obtain ⟨e1, c1⟩ := memo_top_down_correct m._prices m._initial_budget
      m._prices.length false cache hc
    obtain ⟨e2, -⟩ := memo_top_down_correct m._prices m._initial_budget
      m._prices.length false _ c1
    simp only [MaxProfit.solveC, MaxProfit.solve, MaxProfit._top_down,
      Bool.false_eq_true, if_false]
    exact ⟨by rw [e1], by rw [e1, e2]⟩
  · exact ⟨rfl, rfl⟩

/-- Witness for C8: a fresh instance on prices `[1, 2]` with budget `1`,
top-down selector, starting from the empty cache. -/
theorem solve_idempotent_witness :
    Consistent (MaxProfit.init [1, 2] (some 1))._prices
      (MaxProfit.init [1, 2] (some 1))._initial_budget [] ∧
    (((MaxProfit.init [1, 2] (some 1)).solveC false []).1 =
        (MaxProfit.init [1, 2] (some 1)).solve false ∧
      ((MaxProfit.init [1, 2] (some 1)).solveC false
          (((MaxProfit.init [1, 2] (some 1)).solveC false []).2)).1 =
        ((MaxProfit.init [1, 2] (some 1)).solveC false []).1) :=
  ⟨consistent_nil _ _,
    solve_idempotent (MaxProfit.init [1, 2] (some 1)) false []
      (consistent_nil _ _)⟩

/-- Claim C9: with non-negative prices and a valid budget (explicit
non-negative or omitted), `solve` returns a finite profit `≥ 0` under either
strategy: the `do_not_buy` branch always carries the previous not-holding
value forward, so the final not-holding net worth is at least the initial
budget. -/
theorem profit_nonneg (prices : List ℚ) (budget : Option ℚ)
    (bottom_up : Bool) (hp : ∀ p ∈ prices, 0 ≤ p) (hb : validBudget budget) :
    ∃ q, (MaxProfit.init prices budget).solve bottom_up = Cash.val q ∧
      0 ≤ q := by
  obtain ⟨q, hq, hq0⟩ := solve_false_nonneg (MaxProfit.init prices budget)
  have hsel : (MaxProfit.init prices budget).solve bottom_up =
      (MaxProfit.init prices budget).solve false := by
    cases bottom_up
    · rfl
    · exact solve_agrees _
  exact ⟨q, hsel.trans hq, hq0⟩

/-- Witness for C9 at prices `[5, 2]`, omitted budget, bottom-up strategy. -/
theorem profit_nonneg_witness :
    (∀ p ∈ [(5 : ℚ), 2], 0 ≤ p) ∧ validBudget none ∧
    ∃ q, (MaxProfit.init [5, 2] none).solve true = Cash.val q ∧ 0 ≤ q :=
  ⟨by norm_num, trivial, profit_nonneg [5, 2] none true (by norm_num) trivial⟩

/-- Claim C10: with the budget omitted (resolved to `ceil(sum(prices) + 1)`)
and all prices non-negative, the no-borrowing clamp is unreachable in both
strategies: `cash_with_stock` is never the `-inf` sentinel after the first
day's update, and no holding state `(day, has_stock=True)` with `day ≥ 0`
(shifted: `d + 1` with `d` a real day index) returns the sentinel. -/
theorem unlimited_budget_no_disqualification (prices : List ℚ)
    (hp : ∀ p ∈ prices, 0 ≤ p) :
    (∀ k, 1 ≤ k → k ≤ prices.length →
      ((MaxProfit.init prices none).bottom_up_state k).1 ≠ Cash.neginf) ∧
    (∀ d, d < prices.length →
      (MaxProfit.init prices none)._top_down (d + 1) true ≠ Cash.neginf) := by
  have hTD : ∀ d, d < prices.length →
      top_down prices ((⌈prices.sum + 1⌉ : ℤ) : ℚ) (d + 1) true ≠
        Cash.neginf := by
    intro d hd
    obtain ⟨w, hw, -⟩ := top_down_no_clamp prices hp d hd
    rw [hw]
    exact fun h => Cash.noConfusion h
  constructor
  · intro k hk1 hk2
    obtain ⟨d, rfl⟩ : ∃ d, k = d + 1 :=
      ⟨k - 1, (Nat.succ_pred_eq_of_pos hk1).symm⟩
    show ((prices.take (d + 1)).foldl stepBU
      (Cash.neginf, Cash.val ((⌈prices.sum + 1⌉ : ℤ) : ℚ))).1 ≠ Cash.neginf
    rw [foldl_stepBU_eq_top_down prices ((⌈prices.sum + 1⌉ : ℤ) : ℚ)
      (d + 1) hk2]
    exact hTD d hk2
  · exact fun d hd => hTD d hd

/-- Witness for C10 at prices `[1, 2]`. -/
theorem unlimited_budget_no_disqualification_witness :
    (∀ p ∈ [(1 : ℚ), 2], 0 ≤ p) ∧
    ((∀ k, 1 ≤ k → k ≤ [(1 : ℚ), 2].length →
      ((MaxProfit.init [1, 2] none).bottom_up_state k).1 ≠ Cash.neginf) ∧
    (∀ d, d < [(1 : ℚ), 2].length →
      (MaxProfit.init [1, 2] none)._top_down (d + 1) true ≠ Cash.neginf)) :=
  ⟨by norm_num, unlimited_budget_no_disqualification [1, 2] (by norm_num)⟩
